import Mathlib

/-!
Verification of the image2table core: the column Cluster Set and the
line-to-row Table Builder (`processOcrData`), embedded from `src/index.ts`,
together with the downstream text rendering of a Table.

Pixel coordinates and confidence scores are JavaScript numbers; they are
embedded as rationals (`ℚ`), with exact division standing for `/`.
JavaScript `null` becomes `Option.none`.
-/

namespace Image2Table

/-- Axis-aligned bounding box, from tesseract.js `Bbox`. -/
structure Bbox where
  x0 : ℚ
  y0 : ℚ
  x1 : ℚ
  y1 : ℚ
  deriving DecidableEq, Repr

/-- A recognized word: text, confidence score and bounding box. -/
structure Word where
  text : String
  confidence : ℚ
  bbox : Bbox
  deriving DecidableEq, Repr

/-- A glyph-level fragment, used only to seed column detection. -/
structure Symbol where
  bbox : Bbox
  deriving DecidableEq, Repr

/-- A visual text line: an ordered sequence of words. -/
structure Line where
  words : List Word
  deriving DecidableEq, Repr

/-- An OCR page: symbols (seed column geometry) and lines. -/
structure Page where
  symbols : List Symbol
  lines : List Line
  deriving DecidableEq, Repr

/-- The `ProcessingOptions` record from `src/index.ts`. -/
structure ProcessingOptions where
  scale : ℚ
  delimiter : String
  columnThreshold : ℚ
  confidenceThreshold : ℚ
  lowConfidenceMarker : String
  deriving DecidableEq, Repr

/-- A row is a list of cell strings (`type Row = string[]`). -/
abbrev Row := List String

/-- A table is a list of rows (`type Table = Row[]`). -/
abbrev Table := List Row

/-- The `OcrProcessingResult` record from `src/index.ts`. -/
structure OcrProcessingResult where
  table : Table
  lowConfidenceBoxes : List Bbox
  deriving DecidableEq, Repr

/-- A horizontal span, from `intrange.ts` (`{start, end}`); the `end`
field is written `«end»` because `end` is a Lean keyword. -/
structure IntRange where
  start : ℚ
  «end» : ℚ
  deriving DecidableEq, Repr

/-- Modelled from the spec: stable insertion of a range into a list already
sorted by `start` ascending (part of "sort Intervals by start ascending,
ties broken by original order"); `intrangeset.ts` is not in the sources. -/
def insertByStart (r : IntRange) : List IntRange → List IntRange
  | [] => [r]
  | x :: xs => if x.start ≤ r.start then x :: insertByStart r xs else r :: x :: xs

/-- Modelled from the spec: stable sort of the input Intervals by `start`
ascending; `intrangeset.ts` is not in the sources. -/
def sortByStart (rs : List IntRange) : List IntRange :=
  rs.foldl (fun acc r => insertByStart r acc) []

/-- Modelled from the spec: the left-to-right coalescing scan — extend the
running cluster when `interval.start − curEnd ≤ threshold`, otherwise close
it and start a new one; `intrangeset.ts` is not in the sources. -/
def coalesce (threshold : ℚ) : IntRange → List IntRange → List IntRange
  | cur, [] => [cur]
  | cur, r :: rs =>
    if r.start - cur.«end» ≤ threshold then
      coalesce threshold ⟨cur.start, max cur.«end» r.«end»⟩ rs
    else
      cur :: coalesce threshold r rs

/-- The Cluster Set: the ordered, disjoint clusters of one page. -/
structure IntRangeSet where
  ranges : List IntRange
  deriving DecidableEq, Repr

/-- Modelled from the spec: Cluster Set construction — sort the Intervals by
`start` (stably) and coalesce any two consecutive ones whose gap is at most
the merge threshold; `intrangeset.ts` is not in the sources. -/
def IntRangeSet.make (rs : List IntRange) (threshold : ℚ) : IntRangeSet :=
  match sortByStart rs with
  | [] => ⟨[]⟩
  | r :: rest => ⟨coalesce threshold r rest⟩

/-- Modelled from the spec: cluster lookup — a contained point maps to its
cluster's index, a point before the first cluster to index 0, after the last
to the last index, and a point in a gap to whichever boundary cluster is
nearer; with no clusters the lookup reports "not found" (`none`), the case
the caller's `thisWordColumn !== null` check guards; `intrangeset.ts` is not
in the sources. -/
def lookupIndex (point : ℚ) : Nat → List IntRange → Option Nat
  | _, [] => none
  | i, [_] => some i
  | i, r :: r' :: rs =>
    if point ≤ r.«end» then some i
    else if point < r'.start then
      if point - r.«end» ≤ r'.start - point then some i else some (i + 1)
    else lookupIndex point (i + 1) (r' :: rs)

/-- The `getIndex` method of `intrangeset.ts`, modelled from the spec via `lookupIndex`. -/
def IntRangeSet.getIndex (s : IntRangeSet) (point : ℚ) : Option Nat :=
  lookupIndex point 0 s.ranges

/-- A word's bbox with each coordinate divided by `scale` (the push at
lines 152–157 of `src/index.ts`). -/
def unscaleBbox (scale : ℚ) (b : Bbox) : Bbox :=
  ⟨b.x0 / scale, b.y0 / scale, b.x1 / scale, b.y1 / scale⟩

/-- Cell finalization (lines 171–176 and 200–205 of `src/index.ts`): append
`lowConfidenceMarker` iff the cell's minimum confidence is below
`confidenceThreshold`. -/
def finalizeCell (po : ProcessingOptions) (contents : String) (conf : ℚ) : String :=
  if conf < po.confidenceThreshold then contents ++ po.lowConfidenceMarker else contents

/-- The per-line mutable state of the word loop in `processOcrData`:
`row`, `cellContents`, `cellConfidence`, `currentColumn`, plus this line's
contribution to the global `lowConfidenceBoxes` accumulator. -/
structure LineState where
  row : Row
  cellContents : Option String
  cellConfidence : ℚ
  currentColumn : Option Nat
  boxes : List Bbox
  deriving DecidableEq, Repr

/-- One iteration of the word loop of `processOcrData`
(lines 148–197 of `src/index.ts`). -/
def stepWord (po : ProcessingOptions) (rs : IntRangeSet) (s : LineState) (word : Word) :
    LineState :=
  let boxes :=
    if word.confidence < po.confidenceThreshold then
      s.boxes ++ [unscaleBbox po.scale word.bbox]
    else s.boxes
  let thisWordColumn := rs.getIndex word.bbox.x0
  if thisWordColumn = s.currentColumn then
    { s with
      boxes := boxes
      cellConfidence := min s.cellConfidence word.confidence
      cellContents := some (match s.cellContents with
        | none => word.text
        | some c => c ++ " " ++ word.text) }
  else
    let row := match s.cellContents with
      | none => s.row
      | some c => s.row ++ [finalizeCell po c s.cellConfidence]
    let currentColumn := s.currentColumn.getD 0
    let row := match thisWordColumn with
      | none => row
      | some col => row ++ List.replicate (col - currentColumn - 1) ""
    { row := row
      cellContents := some word.text
      cellConfidence := word.confidence
      currentColumn := thisWordColumn
      boxes := boxes }

/-- Initial per-line state (lines 143–146 of `src/index.ts`). -/
def initState : LineState :=
  { row := [], cellContents := none, cellConfidence := 100, currentColumn := none, boxes := [] }

/-- The word loop of `processOcrData` run over a whole line. -/
def processLine (po : ProcessingOptions) (rs : IntRangeSet) (line : Line) : LineState :=
  line.words.foldl (stepWord po rs) initState

/-- The row a line produces: run the word loop, then finalize and push any
still-open cell (lines 199–206 of `src/index.ts`). -/
def lineRow (po : ProcessingOptions) (rs : IntRangeSet) (line : Line) : Row :=
  let s := processLine po rs line
  match s.cellContents with
  | none => s.row
  | some c => s.row ++ [finalizeCell po c s.cellConfidence]

/-- The low-confidence boxes a line contributes, in word order. -/
def lineBoxes (po : ProcessingOptions) (rs : IntRangeSet) (line : Line) : List Bbox :=
  (processLine po rs line).boxes

/-- The Cluster Set `processOcrData` builds: one range per symbol from its
`[x0, x1]`, merge threshold `columnThreshold * scale`
(lines 131–137 of `src/index.ts`). -/
def pageRangeSet (page : Page) (po : ProcessingOptions) : IntRangeSet :=
  IntRangeSet.make (page.symbols.map (fun s => ⟨s.bbox.x0, s.bbox.x1⟩))
    (po.columnThreshold * po.scale)

/-- The function `processOcrData` of `src/index.ts` (lines 118–212): build the Cluster
Set from the symbols, then one row per line, accumulating the table and the
low-confidence boxes in page order. -/
def processOcrData (page : Page) (po : ProcessingOptions) : OcrProcessingResult :=
  let rs := pageRangeSet page po
  page.lines.foldl
    (fun acc line =>
      { table := acc.table ++ [lineRow po rs line]
        lowConfidenceBoxes := acc.lowConfidenceBoxes ++ lineBoxes po rs line })
    { table := [], lowConfidenceBoxes := [] }

/-- JavaScript `text.slice(0, -1)`: drop the last code unit of the string. -/
def sliceDropLast (s : String) : String := ⟨s.data.dropLast⟩

/-- The text rendering of `AppRequest.start` (lines 318–339 of
`src/index.ts`): append every cell followed by the delimiter, slice off the
final character of a non-empty row's text, then append a line break. -/
def renderTable (table : Table) (delimiter : String) : String :=
  table.foldl
    (fun text row =>
      let text := row.foldl (fun t cell => t ++ cell ++ delimiter) text
      let text := if row.length ≥ 1 then sliceDropLast text else text
      text ++ "\n")
    ""

/-- Cells joined by the delimiter, as the spec describes the rendering of a
Row ("the Row's cells joined by the delimiter with the trailing delimiter
trimmed"). -/
def joinCells (delimiter : String) : List String → String
  | [] => ""
  | [c] => c
  | c :: cs => c ++ delimiter ++ joinCells delimiter cs

/-- The rendering the spec describes: each Row's cells joined by the
delimiter, each row followed by a line break. -/
def renderTableSpec (table : Table) (delimiter : String) : String :=
  String.join (table.map (fun row => joinCells delimiter row ++ "\n"))

/-- The per-word low-confidence check of lines 151–158 of `src/index.ts`,
as an optional value: the unscaled bbox when the word is low-confidence. -/
def lowBoxOf (po : ProcessingOptions) (w : Word) : Option Bbox :=
  if w.confidence < po.confidenceThreshold then some (unscaleBbox po.scale w.bbox) else none

/-! Sample data used by witnesses and counterexamples. -/

/-- A sample bounding box of width 8 and height 10 at abscissa `x`. -/
def boxAt (x : ℚ) : Bbox := ⟨x, 0, x + 8, 10⟩

/-- Sample options: scale 2, column threshold 5, confidence threshold 90. -/
def poW : ProcessingOptions :=
  { scale := 2, delimiter := ",", columnThreshold := 5, confidenceThreshold := 90,
    lowConfidenceMarker := " (?)" }

/-- Sample page: symbols seeding three columns (the first from two merged
glyphs), one line with words in columns 0, 0 and 2, and one empty line. -/
def pageW : Page :=
  { symbols := [⟨boxAt 0⟩, ⟨boxAt 2⟩, ⟨boxAt 40⟩, ⟨boxAt 80⟩]
    lines := [⟨[⟨"a", 95, boxAt 0⟩, ⟨"b", 95, boxAt 2⟩, ⟨"c", 50, boxAt 80⟩]⟩, ⟨[]⟩] }

/-- Sample page with no symbols and a single confident one-word line. -/
def pageE : Page :=
  { symbols := [], lines := [⟨[⟨"a", 95, boxAt 0⟩]⟩] }

/-- Sample page with no symbols and a single low-confidence one-word line. -/
def pageE2 : Page :=
  { symbols := [], lines := [⟨[⟨"a", 50, boxAt 0⟩]⟩] }

/-! Helper lemmas about the word loop. -/

theorem stepWord_boxes (po : ProcessingOptions) (rs : IntRangeSet) (s : LineState) (w : Word) :
    (stepWord po rs s w).boxes = s.boxes ++ (lowBoxOf po w).toList := by
  simp only [stepWord, lowBoxOf]
  split <;> split <;> split <;> (try split) <;> simp

theorem foldl_stepWord_boxes (po : ProcessingOptions) (rs : IntRangeSet) :
    ∀ (ws : List Word) (s : LineState),
      (ws.foldl (stepWord po rs) s).boxes = s.boxes ++ ws.filterMap (lowBoxOf po)
  | [], s => by simp
  | w :: ws, s => by
    rw [List.foldl_cons, foldl_stepWord_boxes po rs ws, stepWord_boxes, List.filterMap_cons]
    cases lowBoxOf po w <;> simp

theorem lineBoxes_eq (po : ProcessingOptions) (rs : IntRangeSet) (line : Line) :
    lineBoxes po rs line = line.words.filterMap (lowBoxOf po) := by
  simp [lineBoxes, processLine, foldl_stepWord_boxes, initState]

theorem processOcrData_foldl (po : ProcessingOptions) (rs : IntRangeSet) :
    ∀ (ls : List Line) (t : Table) (b : List Bbox),
      ls.foldl
        (fun acc line =>
          ({ table := acc.table ++ [lineRow po rs line]
             lowConfidenceBoxes := acc.lowConfidenceBoxes ++ lineBoxes po rs line }
            : OcrProcessingResult))
        { table := t, lowConfidenceBoxes := b }
      = { table := t ++ ls.map (lineRow po rs)
          lowConfidenceBoxes := b ++ (ls.map (lineBoxes po rs)).flatten }
  | [], t, b => by simp
  | l :: ls, t, b => by
    rw [List.foldl_cons, processOcrData_foldl po rs ls]
    simp

/-- Characterization of `processOcrData`: one row per line, and the
low-confidence boxes are the per-line contributions in page order. -/
theorem processOcrData_eq (page : Page) (po : ProcessingOptions) :
    processOcrData page po
      = { table := page.lines.map (lineRow po (pageRangeSet page po))
          lowConfidenceBoxes :=
            (page.lines.map (lineBoxes po (pageRangeSet page po))).flatten } := by
  simpa [processOcrData] using
    processOcrData_foldl po (pageRangeSet page po) page.lines [] []

theorem lowConfidenceBoxes_eq (page : Page) (po : ProcessingOptions) :
    (processOcrData page po).lowConfidenceBoxes
      = (page.lines.map Line.words).flatten.filterMap (lowBoxOf po) := by
  rw [processOcrData_eq]
  induction page.lines with
  | nil => simp
  | cons l ls ih => simp_all [lineBoxes_eq]

theorem filterMap_lowBoxOf_length (po : ProcessingOptions) :
    ∀ l : List Word,
      (l.filterMap (lowBoxOf po)).length
        = l.countP (fun w => decide (w.confidence < po.confidenceThreshold))
  | [] => by simp
  | w :: l => by
    by_cases h : w.confidence < po.confidenceThreshold <;>
      simp [List.filterMap_cons, List.countP_cons, lowBoxOf, h,
        filterMap_lowBoxOf_length po l]

/-- C9: the low-confidence boxes are exactly the unscaled boxes of the
low-confidence words in line-major, word-order traversal of the page, so
the i-th box corresponds to the i-th low-confidence word in reading
order. -/
theorem lowConfidenceBoxes_reading_order (page : Page) (po : ProcessingOptions) :
    (processOcrData page po).lowConfidenceBoxes
      = (page.lines.map Line.words).flatten.filterMap
          (fun w =>
            if w.confidence < po.confidenceThreshold then
              some (unscaleBbox po.scale w.bbox)
            else none) :=
  lowConfidenceBoxes_eq page po

/-- C4: `lowConfidenceBoxes` has exactly one entry per word of the page
whose confidence is strictly below `confidenceThreshold`, independent of
cell assembly. -/
theorem lowConfidenceBoxes_length (page : Page) (po : ProcessingOptions) :
    (processOcrData page po).lowConfidenceBoxes.length
      = (page.lines.map Line.words).flatten.countP
          (fun w => decide (w.confidence < po.confidenceThreshold)) := by
  rw [lowConfidenceBoxes_eq, filterMap_lowBoxOf_length]

/-- C5: every entry of `lowConfidenceBoxes` is the bounding box of an
originating low-confidence word with each of the four components divided
by `scale`. -/
theorem lowConfidenceBoxes_round_trip (page : Page) (po : ProcessingOptions) :
    ∀ b ∈ (processOcrData page po).lowConfidenceBoxes,
      ∃ l ∈ page.lines, ∃ w ∈ l.words,
        w.confidence < po.confidenceThreshold ∧
        b.x0 = w.bbox.x0 / po.scale ∧ b.y0 = w.bbox.y0 / po.scale ∧
        b.x1 = w.bbox.x1 / po.scale ∧ b.y1 = w.bbox.y1 / po.scale := by
  intro b hb
  rw [lowConfidenceBoxes_eq] at hb
  obtain ⟨w, hw, hfb⟩ := List.mem_filterMap.mp hb
  obtain ⟨ws, hws, hwws⟩ := List.mem_flatten.mp hw
  obtain ⟨l, hl, rfl⟩ := List.mem_map.mp hws
  refine ⟨l, hl, w, hwws, ?_⟩
  simp only [lowBoxOf] at hfb
  split at hfb
  · cases hfb
    simp_all [unscaleBbox]
  · cases hfb

/-- C5 witness. -/
theorem lowConfidenceBoxes_round_trip_witness :
    ∃ l ∈ pageW.lines, ∃ w ∈ l.words,
      w.confidence < poW.confidenceThreshold ∧
      (Bbox.mk 40 0 44 5).x0 = w.bbox.x0 / poW.scale ∧
      (Bbox.mk 40 0 44 5).y0 = w.bbox.y0 / poW.scale ∧
      (Bbox.mk 40 0 44 5).x1 = w.bbox.x1 / poW.scale ∧
      (Bbox.mk 40 0 44 5).y1 = w.bbox.y1 / poW.scale := by
  refine lowConfidenceBoxes_round_trip pageW poW ⟨40, 0, 44, 5⟩ ?_
  rw [lowConfidenceBoxes_eq]
  norm_num only [pageW, poW, lowBoxOf, unscaleBbox, boxAt, List.filterMap]
  norm_num

/-- C7: the table has exactly one row per line of the page, in page order:
it is the map of the per-line row builder over the lines; an empty `lines`
yields an empty table, and a line with no words yields an empty row. -/
theorem table_one_row_per_line (page : Page) (po : ProcessingOptions) :
    (processOcrData page po).table = page.lines.map (lineRow po (pageRangeSet page po))
    ∧ (processOcrData page po).table.length = page.lines.length
    ∧ (page.lines = [] → (processOcrData page po).table = [])
    ∧ (∀ l ∈ page.lines, l.words = [] → lineRow po (pageRangeSet page po) l = []) := by
  have h := processOcrData_eq page po
  refine ⟨by rw [h], by rw [h]; simp, fun he => by rw [h, he]; rfl, ?_⟩
  intro l _ hw
  simp [lineRow, processLine, hw, initState]

/-- C7 witness. -/
theorem table_one_row_per_line_witness :
    (processOcrData pageW poW).table.length = pageW.lines.length
    ∧ lineRow poW (pageRangeSet pageW poW) ⟨[]⟩ = [] :=
  ⟨(table_one_row_per_line pageW poW).2.1,
    (table_one_row_per_line pageW poW).2.2.2 ⟨[]⟩ (by simp [pageW]) rfl⟩

theorem stepWord_cellContents_isSome (po : ProcessingOptions) (rs : IntRangeSet)
    (s : LineState) (w : Word) : ((stepWord po rs s w).cellContents).isSome := by
  simp only [stepWord]
  split <;> simp

theorem foldl_stepWord_isSome (po : ProcessingOptions) (rs : IntRangeSet) :
    ∀ (ws : List Word) (s : LineState), (s.cellContents).isSome →
      ((ws.foldl (stepWord po rs) s).cellContents).isSome
  | [], _, h => h
  | w :: ws, s, _ =>
    foldl_stepWord_isSome po rs ws (stepWord po rs s w) (stepWord_cellContents_isSome po rs s w)

/-- C10: a line with at least one word always yields a row with at least
one cell — after the first word the open cell is non-none, so the
end-of-line finalization pushes at least one cell, whatever the column
lookups return. -/
theorem nonempty_line_nonempty_row (po : ProcessingOptions) (rs : IntRangeSet) (l : Line)
    (h : l.words ≠ []) : 1 ≤ (lineRow po rs l).length := by
  obtain ⟨w, ws, hw⟩ := List.exists_cons_of_ne_nil h
  have hs : ((processLine po rs l).cellContents).isSome := by
    rw [processLine, hw, List.foldl_cons]
    exact foldl_stepWord_isSome po rs ws _ (stepWord_cellContents_isSome po rs initState w)
  obtain ⟨c, hc⟩ := Option.isSome_iff_exists.mp hs
  simp [lineRow, hc]

/-- C10 witness. -/
theorem nonempty_line_nonempty_row_witness :
    1 ≤ (lineRow poW (pageRangeSet pageW poW) ⟨[⟨"a", 95, boxAt 0⟩]⟩).length :=
  nonempty_line_nonempty_row poW (pageRangeSet pageW poW) ⟨[⟨"a", 95, boxAt 0⟩]⟩ (by simp)

/-- C1: in a line whose three words map to columns `[a, a, b]` with
`a < b`, the two column-`a` words merge into one finalized cell, the
skipped columns contribute `a − 0 − 1` and `b − a − 1` empty cells (the
initial `currentColumn` is treated as 0), and the column-`b` word opens the
last cell; for columns `[0, 0, 2]` the row has exactly 3 cells. -/
theorem row_gap_cells (po : ProcessingOptions) (rs : IntRangeSet) (w1 w2 w3 : Word)
    (a b : Nat) (h1 : rs.getIndex w1.bbox.x0 = some a) (h2 : rs.getIndex w2.bbox.x0 = some a)
    (h3 : rs.getIndex w3.bbox.x0 = some b) (hab : a < b) :
    lineRow po rs ⟨[w1, w2, w3]⟩
      = List.replicate (a - 1) ""
          ++ [finalizeCell po (w1.text ++ " " ++ w2.text) (min w1.confidence w2.confidence)]
          ++ List.replicate (b - a - 1) ""
          ++ [finalizeCell po w3.text w3.confidence]
    ∧ (a = 0 ∧ b = 2 → (lineRow po rs ⟨[w1, w2, w3]⟩).length = 3) := by
  have hba : (some b : Option Nat) ≠ some a := by simpa using hab.ne'
  have main : lineRow po rs ⟨[w1, w2, w3]⟩
      = List.replicate (a - 1) ""
          ++ [finalizeCell po (w1.text ++ " " ++ w2.text) (min w1.confidence w2.confidence)]
          ++ List.replicate (b - a - 1) ""
          ++ [finalizeCell po w3.text w3.confidence] := by
    simp [lineRow, processLine, List.foldl, stepWord, initState, h1, h2, h3, hba]
  refine ⟨main, fun hab2 => ?_⟩
  obtain ⟨ha, hb⟩ := hab2
  subst ha
  subst hb
  rw [main]
  simp

/-- C1 witness. -/
theorem row_gap_cells_witness :
    lineRow poW (pageRangeSet pageW poW)
        ⟨[⟨"a", 95, boxAt 0⟩, ⟨"b", 95, boxAt 2⟩, ⟨"c", 50, boxAt 80⟩]⟩
      = ["a b", "", "c (?)"] := by
  have hg1 : (pageRangeSet pageW poW).getIndex (0 : ℚ) = some 0 := by
    norm_num only [pageRangeSet, IntRangeSet.make, sortByStart, insertByStart, coalesce,
      IntRangeSet.getIndex, lookupIndex, boxAt, poW, pageW, List.foldl]
    norm_num [coalesce, lookupIndex]
  have hg2 : (pageRangeSet pageW poW).getIndex (2 : ℚ) = some 0 := by
    norm_num only [pageRangeSet, IntRangeSet.make, sortByStart, insertByStart, coalesce,
      IntRangeSet.getIndex, lookupIndex, boxAt, poW, pageW, List.foldl]
    norm_num [coalesce, lookupIndex]
  have hg3 : (pageRangeSet pageW poW).getIndex (80 : ℚ) = some 2 := by
    norm_num only [pageRangeSet, IntRangeSet.make, sortByStart, insertByStart, coalesce,
      IntRangeSet.getIndex, lookupIndex, boxAt, poW, pageW, List.foldl]
    norm_num [coalesce, lookupIndex]
  have h := (row_gap_cells poW (pageRangeSet pageW poW)
    ⟨"a", 95, boxAt 0⟩ ⟨"b", 95, boxAt 2⟩ ⟨"c", 50, boxAt 80⟩ 0 2 hg1 hg2 hg3 (by decide)).1
  rw [h]
  norm_num [finalizeCell, poW]
  exact ⟨rfl, rfl⟩

/-! Totality of the cluster lookup on a non-empty Cluster Set. -/

theorem insertByStart_ne_nil (r : IntRange) : ∀ l, insertByStart r l ≠ []
  | [] => by simp [insertByStart]
  | x :: xs => by
    simp only [insertByStart]
    split <;> simp

theorem foldl_insertByStart_ne_nil :
    ∀ (xs : List IntRange) (acc : List IntRange), acc ≠ [] →
      xs.foldl (fun acc r => insertByStart r acc) acc ≠ []
  | [], _, h => h
  | x :: xs, acc, _ =>
    foldl_insertByStart_ne_nil xs (insertByStart x acc) (insertByStart_ne_nil x acc)

theorem sortByStart_ne_nil {l : List IntRange} (h : l ≠ []) : sortByStart l ≠ [] := by
  obtain ⟨x, xs, rfl⟩ := List.exists_cons_of_ne_nil h
  rw [sortByStart, List.foldl_cons]
  exact foldl_insertByStart_ne_nil xs (insertByStart x []) (insertByStart_ne_nil x [])

theorem coalesce_ne_nil (t : ℚ) : ∀ (rs : List IntRange) (cur : IntRange), coalesce t cur rs ≠ []
  | [], cur => by simp [coalesce]
  | r :: rs, cur => by
    simp only [coalesce]
    split
    · exact coalesce_ne_nil t rs _
    · simp

theorem make_ranges_ne_nil {l : List IntRange} (t : ℚ) (h : l ≠ []) :
    (IntRangeSet.make l t).ranges ≠ [] := by
  rcases hs : sortByStart l with _ | ⟨r, rest⟩
  · exact absurd hs (sortByStart_ne_nil h)
  · simp only [IntRangeSet.make, hs]
    exact coalesce_ne_nil t rest r

theorem lookupIndex_total (p : ℚ) :
    ∀ (l : List IntRange) (i : Nat), l ≠ [] →
      ∃ j, lookupIndex p i l = some j ∧ j < i + l.length
  | [], _, h => absurd rfl h
  | [_], i, _ => ⟨i, rfl, by simp⟩
  | r :: r' :: rs, i, _ => by
    simp only [lookupIndex]
    split
    · exact ⟨i, rfl, by simp only [List.length_cons]; omega⟩
    · split
      · split
        · exact ⟨i, rfl, by simp only [List.length_cons]; omega⟩
        · exact ⟨i + 1, rfl, by simp only [List.length_cons]; omega⟩
      · obtain ⟨j, hj, hlt⟩ := lookupIndex_total p (r' :: rs) (i + 1) (by simp)
        exact ⟨j, hj, by simp only [List.length_cons] at hlt ⊢; omega⟩

theorem getIndex_isSome_valid (s : IntRangeSet) (p : ℚ) (h : s.ranges ≠ []) :
    ∃ j, s.getIndex p = some j ∧ j < s.ranges.length := by
  simpa [IntRangeSet.getIndex] using lookupIndex_total p s.ranges 0 h

/-- C2: when every word's `x0` originated from a symbol that fed the
Cluster Set's construction, every column lookup the Table Builder performs
resolves to a valid cluster index, never `none` — the null-handling branch
of the word loop is unreachable. -/
theorem getIndex_never_null (page : Page) (po : ProcessingOptions)
    (h : ∀ l ∈ page.lines, ∀ w ∈ l.words, ∃ s ∈ page.symbols, w.bbox.x0 = s.bbox.x0) :
    ∀ l ∈ page.lines, ∀ w ∈ l.words,
      ∃ j, (pageRangeSet page po).getIndex w.bbox.x0 = some j
        ∧ j < (pageRangeSet page po).ranges.length := by
  intro l hl w hw
  obtain ⟨sym, hsym, _⟩ := h l hl w hw
  have hne : page.symbols ≠ [] := by
    intro he
    rw [he] at hsym
    cases hsym
  apply getIndex_isSome_valid
  simp only [pageRangeSet]
  exact make_ranges_ne_nil _ (by simpa using hne)

/-- C2 witness. -/
theorem getIndex_never_null_witness :
    ∃ j, (pageRangeSet pageW poW).getIndex
        (⟨"c", 50, boxAt 80⟩ : Word).bbox.x0 = some j
      ∧ j < (pageRangeSet pageW poW).ranges.length :=
  getIndex_never_null pageW poW (by decide)
    ⟨[⟨"a", 95, boxAt 0⟩, ⟨"b", 95, boxAt 2⟩, ⟨"c", 50, boxAt 80⟩]⟩ (by simp [pageW])
    ⟨"c", 50, boxAt 80⟩ (by simp)

/-! Confidence bookkeeping of the word loop. -/

theorem stepWord_conf_nonneg (po : ProcessingOptions) (rs : IntRangeSet) (s : LineState)
    (w : Word) (hs : 0 ≤ s.cellConfidence) (hw : 0 ≤ w.confidence) :
    0 ≤ (stepWord po rs s w).cellConfidence := by
  simp only [stepWord]
  split
  · simpa using le_min hs hw
  · simpa using hw

theorem stepWord_conf_le (po : ProcessingOptions) (rs : IntRangeSet) (s : LineState)
    (w : Word) (hs : s.cellConfidence ≤ 100) (hw : w.confidence ≤ 100) :
    (stepWord po rs s w).cellConfidence ≤ 100 := by
  simp only [stepWord]
  split
  · simpa using Or.inl hs
  · simpa using hw

theorem stepWord_marker_irrel (po : ProcessingOptions) (m : String) (rs : IntRangeSet)
    (s : LineState) (w : Word) (hthr : po.confidenceThreshold = 0)
    (hs : 0 ≤ s.cellConfidence) :
    stepWord { po with lowConfidenceMarker := m } rs s w = stepWord po rs s w := by
  have hnot : ¬ s.cellConfidence < po.confidenceThreshold := by
    rw [hthr]
    exact not_lt.mpr hs
  have hfin : ∀ c : String,
      finalizeCell { po with lowConfidenceMarker := m } c s.cellConfidence
        = finalizeCell po c s.cellConfidence := by
    intro c
    simp [finalizeCell, hnot]
  simp only [stepWord, hfin]

theorem foldl_marker_irrel (po : ProcessingOptions) (m : String) (rs : IntRangeSet)
    (hthr : po.confidenceThreshold = 0) :
    ∀ (ws : List Word) (s : LineState), 0 ≤ s.cellConfidence →
      (∀ w ∈ ws, 0 ≤ w.confidence) →
      ws.foldl (stepWord { po with lowConfidenceMarker := m } rs) s
          = ws.foldl (stepWord po rs) s
        ∧ 0 ≤ (ws.foldl (stepWord po rs) s).cellConfidence
  | [], _, hs, _ => ⟨rfl, hs⟩
  | w :: ws, s, hs, hws => by
    have hw : 0 ≤ w.confidence := hws w (by simp)
    have hrec := foldl_marker_irrel po m rs hthr ws (stepWord po rs s w)
      (stepWord_conf_nonneg po rs s w hs hw) (fun x hx => hws x (by simp [hx]))
    rw [List.foldl_cons, List.foldl_cons, stepWord_marker_irrel po m rs s w hthr hs]
    exact hrec

theorem lineRow_marker_irrel (po : ProcessingOptions) (m : String) (rs : IntRangeSet)
    (l : Line) (hthr : po.confidenceThreshold = 0)
    (hws : ∀ w ∈ l.words, 0 ≤ w.confidence) :
    lineRow { po with lowConfidenceMarker := m } rs l = lineRow po rs l := by
  have h := foldl_marker_irrel po m rs hthr l.words initState (by norm_num [initState]) hws
  have hnot : ¬ (l.words.foldl (stepWord po rs) initState).cellConfidence
      < po.confidenceThreshold := by
    rw [hthr]
    exact not_lt.mpr h.2
  simp only [lineRow, processLine, h.1]
  cases hc : (l.words.foldl (stepWord po rs) initState).cellContents with
  | none => rfl
  | some c => simp [hc, finalizeCell, hnot]

/-- With `confidenceThreshold = 0` and all word confidences non-negative,
the produced table does not depend on `lowConfidenceMarker` at all: no cell
carries the marker. -/
theorem table_marker_irrel (page : Page) (po : ProcessingOptions) (m : String)
    (hthr : po.confidenceThreshold = 0)
    (hconf : ∀ l ∈ page.lines, ∀ w ∈ l.words, 0 ≤ w.confidence) :
    (processOcrData page { po with lowConfidenceMarker := m }).table
      = (processOcrData page po).table := by
  rw [processOcrData_eq, processOcrData_eq]
  have hrs : pageRangeSet page { po with lowConfidenceMarker := m } = pageRangeSet page po :=
    rfl
  rw [hrs]
  exact List.map_congr_left fun l hl =>
    lineRow_marker_irrel po m (pageRangeSet page po) l hthr (hconf l hl)

theorem stepWord_row_marked (po : ProcessingOptions) (rs : IntRangeSet) (s : LineState)
    (w : Word) (hthr : 100 < po.confidenceThreshold) (hs : s.cellConfidence ≤ 100)
    (hrow : ∀ cell ∈ s.row, cell = "" ∨ ∃ t, cell = t ++ po.lowConfidenceMarker) :
    ∀ cell ∈ (stepWord po rs s w).row,
      cell = "" ∨ ∃ t, cell = t ++ po.lowConfidenceMarker := by
  intro cell hcell
  have hfin : ∀ c, finalizeCell po c s.cellConfidence = c ++ po.lowConfidenceMarker := by
    intro c
    simp [finalizeCell, lt_of_le_of_lt hs hthr]
  simp only [stepWord] at hcell
  by_cases hcol : rs.getIndex w.bbox.x0 = s.currentColumn
  · rw [if_pos hcol] at hcell
    exact hrow cell (by simpa using hcell)
  · rw [if_neg hcol] at hcell
    cases hg : rs.getIndex w.bbox.x0 <;> cases hc : s.cellContents <;>
        simp only [hg, hc, hfin, List.mem_append, List.mem_singleton,
          List.eq_of_mem_replicate] at hcell
    · exact hrow cell hcell
    · rcases hcell with h | h
      · exact hrow cell h
      · exact Or.inr ⟨_, h⟩
    · rcases hcell with h | h
      · exact hrow cell h
      · exact Or.inl (List.eq_of_mem_replicate h)
    · rcases hcell with (h | h) | h
      · exact hrow cell h
      · exact Or.inr ⟨_, h⟩
      · exact Or.inl (List.eq_of_mem_replicate h)

theorem foldl_row_marked (po : ProcessingOptions) (rs : IntRangeSet)
    (hthr : 100 < po.confidenceThreshold) :
    ∀ (ws : List Word) (s : LineState), s.cellConfidence ≤ 100 →
      (∀ w ∈ ws, w.confidence ≤ 100) →
      (∀ cell ∈ s.row, cell = "" ∨ ∃ t, cell = t ++ po.lowConfidenceMarker) →
      (ws.foldl (stepWord po rs) s).cellConfidence ≤ 100
        ∧ ∀ cell ∈ (ws.foldl (stepWord po rs) s).row,
            cell = "" ∨ ∃ t, cell = t ++ po.lowConfidenceMarker
  | [], _, hs, _, hrow => ⟨hs, hrow⟩
  | w :: ws, s, hs, hws, hrow => by
    have hw : w.confidence ≤ 100 := hws w (by simp)
    rw [List.foldl_cons]
    exact foldl_row_marked po rs hthr ws (stepWord po rs s w)
      (stepWord_conf_le po rs s w hs hw) (fun x hx => hws x (by simp [hx]))
      (stepWord_row_marked po rs s w hthr hs hrow)

theorem lineRow_marked (po : ProcessingOptions) (rs : IntRangeSet) (l : Line)
    (hthr : 100 < po.confidenceThreshold) (hws : ∀ w ∈ l.words, w.confidence ≤ 100) :
    ∀ cell ∈ lineRow po rs l, cell = "" ∨ ∃ t, cell = t ++ po.lowConfidenceMarker := by
  have h := foldl_row_marked po rs hthr l.words initState (by norm_num [initState]) hws
    (by simp [initState])
  intro cell hcell
  simp only [lineRow, processLine] at hcell
  cases hc : (l.words.foldl (stepWord po rs) initState).cellContents with
  | none =>
    rw [hc] at hcell
    exact h.2 cell hcell
  | some c =>
    rw [hc] at hcell
    rcases (List.mem_append.mp hcell) with hmem | hmem
    · exact h.2 cell hmem
    · refine Or.inr ⟨c, ?_⟩
      have : cell = finalizeCell po c
          (l.words.foldl (stepWord po rs) initState).cellConfidence :=
        List.mem_singleton.mp hmem
      rw [this]
      simp [finalizeCell, lt_of_le_of_lt h.1 hthr]

/-- C3: finalization appends exactly one occurrence of
`lowConfidenceMarker` iff the cell's minimum confidence is strictly below
`confidenceThreshold`; with threshold 0 and non-negative confidences no
cell carries the marker (the table is independent of the marker string),
and with threshold above 100 and confidences at most 100 every non-empty
cell ends with the marker. -/
theorem cell_marker_iff (page : Page) (po : ProcessingOptions) :
    (∀ (c : String) (conf : ℚ),
        (conf < po.confidenceThreshold →
          finalizeCell po c conf = c ++ po.lowConfidenceMarker)
        ∧ (¬ conf < po.confidenceThreshold → finalizeCell po c conf = c))
    ∧ (po.confidenceThreshold = 0 →
        (∀ l ∈ page.lines, ∀ w ∈ l.words, 0 ≤ w.confidence) →
        ∀ m, (processOcrData page { po with lowConfidenceMarker := m }).table
          = (processOcrData page po).table)
    ∧ (100 < po.confidenceThreshold →
        (∀ l ∈ page.lines, ∀ w ∈ l.words, w.confidence ≤ 100) →
        ∀ row ∈ (processOcrData page po).table, ∀ cell ∈ row,
          cell = "" ∨ ∃ t, cell = t ++ po.lowConfidenceMarker) := by
  refine ⟨fun c conf =>
      ⟨fun h => by simp [finalizeCell, h], fun h => by simp [finalizeCell, h]⟩,
    fun hthr hconf m => table_marker_irrel page po m hthr hconf,
    fun hthr hconf => ?_⟩
  intro row hrow cell hcell
  rw [processOcrData_eq] at hrow
  obtain ⟨l, hl, rfl⟩ := List.mem_map.mp hrow
  exact lineRow_marked po (pageRangeSet page po) l hthr (hconf l hl) cell hcell

/-- C3 witness. -/
theorem cell_marker_iff_witness :
    finalizeCell poW "c" 50 = "c (?)"
    ∧ (processOcrData pageE
          { poW with confidenceThreshold := 0, lowConfidenceMarker := "XX" }).table
        = (processOcrData pageE { poW with confidenceThreshold := 0 }).table
    ∧ ("a (?)" = "" ∨ ∃ t, "a (?)"
        = t ++ ({ poW with confidenceThreshold := 101 } : ProcessingOptions).lowConfidenceMarker) := by
  refine ⟨?_, ?_, ?_⟩
  · have h := ((cell_marker_iff pageE poW).1 "c" 50).1 (by norm_num [poW])
    rw [h]
    rfl
  · exact (cell_marker_iff pageE { poW with confidenceThreshold := 0 }).2.1 rfl (by decide) "XX"
  · have htbl : (processOcrData pageE { poW with confidenceThreshold := 101 }).table
        = [["a (?)"]] := by
      norm_num only [processOcrData, pageRangeSet, IntRangeSet.make, sortByStart,
        insertByStart, coalesce, lineRow, processLine, stepWord, initState,
        IntRangeSet.getIndex, lookupIndex, finalizeCell, unscaleBbox, boxAt, poW, pageE,
        lineBoxes, List.foldl]
      norm_num
      rfl
    exact (cell_marker_iff pageE { poW with confidenceThreshold := 101 }).2.2
      (by norm_num [poW]) (by decide) ["a (?)"] (by rw [htbl]; simp) "a (?)" (by simp)

/-! The degenerate page with no symbols: every lookup is `none` and each
line merges into a single cell. -/

theorem pageRangeSet_no_symbols (page : Page) (po : ProcessingOptions)
    (h : page.symbols = []) : pageRangeSet page po = ⟨[]⟩ := by
  simp only [pageRangeSet, h, List.map_nil]
  rfl

theorem getIndex_empty (rs : IntRangeSet) (h : rs.ranges = []) (p : ℚ) :
    rs.getIndex p = none := by
  rw [IntRangeSet.getIndex, h]
  rfl

theorem stepWord_nullcol (po : ProcessingOptions) (rs : IntRangeSet)
    (hrs : ∀ p, rs.getIndex p = none) (r : Row) (c : String) (q : ℚ) (bx : List Bbox)
    (w : Word) :
    stepWord po rs ⟨r, some c, q, none, bx⟩ w
      = ⟨r, some (c ++ " " ++ w.text), min q w.confidence, none,
          bx ++ (lowBoxOf po w).toList⟩ := by
  simp only [stepWord, hrs, lowBoxOf]
  split
  · split <;> simp
  · simp_all

theorem foldl_stepWord_nullcol (po : ProcessingOptions) (rs : IntRangeSet)
    (hrs : ∀ p, rs.getIndex p = none) :
    ∀ (ws : List Word) (r : Row) (c : String) (q : ℚ) (bx : List Bbox),
      ws.foldl (stepWord po rs) ⟨r, some c, q, none, bx⟩
        = ⟨r, some (ws.foldl (fun acc x => acc ++ " " ++ x.text) c),
            ws.foldl (fun a x => min a x.confidence) q,
            none, bx ++ ws.filterMap (lowBoxOf po)⟩
  | [], r, c, q, bx => by simp
  | w :: ws, r, c, q, bx => by
    rw [List.foldl_cons, stepWord_nullcol po rs hrs,
      foldl_stepWord_nullcol po rs hrs ws]
    rw [List.filterMap_cons]
    cases lowBoxOf po w <;> simp

theorem lineRow_nullcol (po : ProcessingOptions) (rs : IntRangeSet)
    (hrs : ∀ p, rs.getIndex p = none) (l : Line) :
    lineRow po rs l
      = match l.words with
        | [] => []
        | w :: ws =>
          [finalizeCell po (ws.foldl (fun acc x => acc ++ " " ++ x.text) w.text)
            (ws.foldl (fun a x => min a x.confidence) (min 100 w.confidence))] := by
  cases hw : l.words with
  | nil => simp [lineRow, processLine, hw, initState]
  | cons w ws =>
    have hfirst : stepWord po rs initState w
        = ⟨[], some w.text, min 100 w.confidence, none, (lowBoxOf po w).toList⟩ := by
      simp only [stepWord, hrs, initState, lowBoxOf]
      split
      · split <;> simp
      · simp_all
    simp only [lineRow, processLine, hw, List.foldl_cons, hfirst,
      foldl_stepWord_nullcol po rs hrs ws]
    simp

/-- C6 (amended): with no symbols the Cluster Set is empty, every lookup
degrades, and all words of each line merge into a single cell; a page with
one single-word line yields a one-row table whose only cell is that word's
text, provided the word's confidence reaches `confidenceThreshold` (with
threshold in the 0–100 range) — otherwise the marker is appended. -/
theorem no_symbols_single_column (page : Page) (po : ProcessingOptions)
    (h : page.symbols = []) :
    ((processOcrData page po).table = page.lines.map (fun l =>
        match l.words with
        | [] => []
        | w :: ws =>
          [finalizeCell po (ws.foldl (fun acc x => acc ++ " " ++ x.text) w.text)
            (ws.foldl (fun a x => min a x.confidence) (min 100 w.confidence))]))
    ∧ (∀ w : Word, page.lines = [⟨[w]⟩] → po.confidenceThreshold ≤ 100 →
        po.confidenceThreshold ≤ w.confidence →
        (processOcrData page po).table = [[w.text]]) := by
  have hrs : ∀ p, (pageRangeSet page po).getIndex p = none := fun p => by
    rw [pageRangeSet_no_symbols page po h]
    rfl
  have hmap : (processOcrData page po).table = page.lines.map (fun l =>
      match l.words with
      | [] => []
      | w :: ws =>
        [finalizeCell po (ws.foldl (fun acc x => acc ++ " " ++ x.text) w.text)
          (ws.foldl (fun a x => min a x.confidence) (min 100 w.confidence))]) := by
    rw [processOcrData_eq]
    exact List.map_congr_left fun l _ => lineRow_nullcol po (pageRangeSet page po) hrs l
  refine ⟨hmap, fun w hl h100 hw => ?_⟩
  rw [hmap, hl]
  have : ¬ min (100 : ℚ) w.confidence < po.confidenceThreshold :=
    not_lt.mpr (le_min h100 hw)
  simp [finalizeCell, this]

/-- C6 counterexample to the claim as stated: a low-confidence single word
still gets the marker appended, so the cell is not the word's bare text. -/
theorem no_symbols_single_column_counterexample :
    (processOcrData pageE2 poW).table = [["a (?)"]]
    ∧ (processOcrData pageE2 poW).table ≠ [["a"]] := by
  have htbl : (processOcrData pageE2 poW).table = [["a (?)"]] := by
    norm_num only [processOcrData, pageRangeSet, IntRangeSet.make, sortByStart,
      insertByStart, coalesce, lineRow, processLine, stepWord, initState,
      IntRangeSet.getIndex, lookupIndex, finalizeCell, unscaleBbox, boxAt, poW, pageE2,
      lineBoxes, List.foldl]
    norm_num
    rfl
  exact ⟨htbl, by rw [htbl]; decide⟩

/-- C6 witness. -/
theorem no_symbols_single_column_witness :
    (processOcrData pageE poW).table = [["a"]] :=
  (no_symbols_single_column pageE poW rfl).2 ⟨"a", 95, boxAt 0⟩ rfl
    (by norm_num [poW]) (by norm_num [poW])

/-! Text rendering of a Table. -/

theorem join_cons (x : String) (xs : List String) :
    String.join (x :: xs) = x ++ String.join xs := by
  apply String.ext
  simp [String.join_eq, String.data_append]

theorem sliceDropLast_append (s d : String) (h : d.length = 1) :
    sliceDropLast (s ++ d) = s := by
  obtain ⟨c, hc⟩ := List.length_eq_one.mp (show d.data.length = 1 from h)
  apply String.ext
  simp [sliceDropLast, String.data_append, hc, List.dropLast_concat]

theorem foldl_cells (d : String) :
    ∀ (row : List String) (t0 : String), row ≠ [] →
      row.foldl (fun t cell => t ++ cell ++ d) t0 = t0 ++ joinCells d row ++ d
  | [], _, h => absurd rfl h
  | [c], t0, _ => by simp [joinCells]
  | c :: c' :: cs, t0, _ => by
    rw [List.foldl_cons, foldl_cells d (c' :: cs) (t0 ++ c ++ d) (by simp)]
    simp [joinCells, String.append_assoc]

theorem renderTable_foldl (d : String) (h : d.length = 1) :
    ∀ (rows : Table) (t0 : String),
      rows.foldl
        (fun text row =>
          (if row.length ≥ 1 then
              sliceDropLast (row.foldl (fun t cell => t ++ cell ++ d) text)
            else row.foldl (fun t cell => t ++ cell ++ d) text) ++ "\n")
        t0
      = t0 ++ renderTableSpec rows d
  | [], t0 => by simp [renderTableSpec, String.join, String.append_empty]
  | row :: rows, t0 => by
    rw [List.foldl_cons, renderTable_foldl d h rows]
    cases hrow : row with
    | nil =>
      simp [renderTableSpec, joinCells, join_cons, String.append_assoc,
        String.empty_append]
    | cons c cs =>
      rw [← hrow]
      have hne : row ≠ [] := by simp [hrow]
      rw [if_pos (by simp [hrow]), foldl_cells d row t0 hne,
        sliceDropLast_append _ d h]
      simp [renderTableSpec, join_cons, String.append_assoc]

/-- C8 counterexample to the claim as stated: with the two-character
delimiter "ab" the rendering slices off only the delimiter's last
character, so the trailing delimiter is not trimmed. -/
theorem renderTable_counterexample :
    renderTable [["x"]] "ab" = "xa\n"
    ∧ renderTable [["x"]] "ab" ≠ joinCells "ab" ["x"] ++ "\n" := by
  constructor <;> decide

/-- C8 (amended): for every table and every single-character delimiter,
the rendering joins each row's cells with the delimiter, trims the
trailing delimiter from a non-empty row, and follows every row (an empty
row included) with a line break. -/
theorem renderTable_eq_spec (table : Table) (d : String) (h : d.length = 1) :
    renderTable table d = renderTableSpec table d := by
  simpa [renderTable, String.empty_append] using renderTable_foldl d h table ""

/-- C8 witness. -/
theorem renderTable_eq_spec_witness :
    renderTable [["a", "b"], []] "," = renderTableSpec [["a", "b"], []] "," :=
  renderTable_eq_spec [["a", "b"], []] "," rfl

end Image2Table
